import Mathlib

/-!
Verification development for the record codec engine of ktool's
src/kmacho/structs.py: a schema-driven binary struct codec.

The embedding below translates the generic engine (the Struct class:
create_with_bytes, create_with_values, _rebuild_raw, _uint_to_int, and the
BitFieldStruct.pre_init bitfield overlay) into executable Lean definitions.

Modelling conventions:
- A byte buffer is a List Nat; genuine byte buffers satisfy every element < 256.
- A schema is the ordered list of field type tags.  In the source a tag is an
  int combining type_mask bits with a byte width (type_uint 0x0, type_sint
  0x10000, type_str 0x20000, type_bytes 0x30000), or a nested Struct subclass;
  the inductive FieldType represents the (kind, width) decomposition that
  create_with_bytes extracts with type_mask and size_mask.  Field names do not
  affect the pack/unpack math and are omitted.
- Schema.size is the sum of the member widths; every concrete schema declared
  in structs.py has its SIZE class attribute equal to that sum.
- Python strings are represented by their UTF-8 byte sequences (UTF-8 encoding
  is injective, and bytes.decode followed by str.encode is the identity on
  valid UTF-8 input).  str.replace removing the NUL character corresponds
  exactly to removing the 0x00 bytes, because 0x00 appears in valid UTF-8
  only as the encoding of U+0000.
- Raised exceptions (OverflowError from int.to_bytes, UnicodeDecodeError from
  bytes.decode, AssertionError, IndexError) are modelled as none.
-/

/-- Byte order selector: the byte_order parameter of the source, whose values
are the strings "little" and "big". -/
inductive ByteOrder where
  | little : ByteOrder
  | big : ByteOrder
deriving DecidableEq

mutual
/-- A field type tag of structs.py: unsigned int, signed int, fixed text,
opaque bytes (each with a byte width), or a nested Struct subclass. -/
inductive FieldType where
  | uint : Nat → FieldType
  | sint : Nat → FieldType
  | str : Nat → FieldType
  | bytes : Nat → FieldType
  | nested : Schema → FieldType

/-- A schema: the ordered _SIZES list of a Struct subclass. -/
inductive Schema where
  | nil : Schema
  | cons : FieldType → Schema → Schema
end

mutual
/-- Byte width of one field: the size_mask component of the tag, or the
nested subclass's SIZE. -/
def FieldType.width : FieldType → Nat
  | .uint w => w
  | .sint w => w
  | .str w => w
  | .bytes w => w
  | .nested s => s.size

/-- Total byte size of a schema: the sum of the member widths (the SIZE class
attribute of every Struct subclass declared in structs.py equals this sum). -/
def Schema.size : Schema → Nat
  | .nil => 0
  | .cons f rest => f.width + rest.size
end

/-- Number of fields of a schema (the length of _FIELDNAMES). -/
def Schema.num_fields : Schema → Nat
  | .nil => 0
  | .cons _ rest => 1 + rest.num_fields

/-- Little-endian value of a byte sequence: int.from_bytes(data, "little"). -/
def from_bytes_little : List Nat → Nat
  | [] => 0
  | b :: rest => b + 256 * from_bytes_little rest

/-- Model of int.from_bytes(data, byte_order): big-endian accumulates
most-significant-first. -/
def from_bytes (data : List Nat) : ByteOrder → Nat
  | .little => from_bytes_little data
  | .big => data.foldl (fun acc b => 256 * acc + b) 0

/-- Little-endian fixed-width byte expansion used by int.to_bytes. -/
def to_bytes_little : Nat → Nat → List Nat
  | 0, _ => []
  | w + 1, v => v % 256 :: to_bytes_little w (v / 256)

/-- Model of int.to_bytes(length, byteorder): raises OverflowError (modelled
as none) when the int is negative or does not fit in length bytes. -/
def to_bytes (len : Nat) (v : Int) (bo : ByteOrder) : Option (List Nat) :=
  if v < 0 then none
  else if 256 ^ len ≤ v.toNat then none
  else match bo with
    | .little => some (to_bytes_little len v.toNat)
    | .big => some ((to_bytes_little len v.toNat).reverse)

/-- Model of _uint_to_int(uint, bits): two's-complement correction applied to
an unsigned read. -/
def uint_to_int (u : Nat) (bits : Nat) : Int :=
  if u &&& (1 <<< (bits - 1)) != 0 then (u : Int) - ((1 <<< bits : Nat) : Int)
  else (u : Int)

mutual
/-- Validity of a byte sequence as UTF-8 (RFC 3629, as enforced by Python's
bytes.decode: no surrogates, no overlong forms, maximum U+10FFFF).
bytes.decode raises UnicodeDecodeError exactly when this is false.  The
first-byte ranges select the sequence length and the admissible range of the
first continuation byte; the helper functions check that many continuation
bytes, the first against the given range and the rest against 0x80-0xBF. -/
def validUTF8 : List Nat → Bool
  | [] => true
  | b :: rest =>
    if b < 128 then validUTF8 rest
    else if b < 194 then false
    else if b < 224 then utf8_tail1 128 192 rest
    else if b = 224 then utf8_tail2 160 192 rest
    else if b = 237 then utf8_tail2 128 160 rest
    else if b < 240 then utf8_tail2 128 192 rest
    else if b = 240 then utf8_tail3 144 192 rest
    else if b < 244 then utf8_tail3 128 192 rest
    else if b = 244 then utf8_tail3 128 144 rest
    else false

/-- One continuation byte in the range lo ≤ c < hi, then a valid rest. -/
def utf8_tail1 (lo hi : Nat) : List Nat → Bool
  | c :: rest => (lo ≤ c && c < hi) && validUTF8 rest
  | [] => false

/-- A ranged continuation byte followed by one ordinary continuation byte. -/
def utf8_tail2 (lo hi : Nat) : List Nat → Bool
  | c :: rest => (lo ≤ c && c < hi) && utf8_tail1 128 192 rest
  | [] => false

/-- A ranged continuation byte followed by two ordinary continuation bytes. -/
def utf8_tail3 (lo hi : Nat) : List Nat → Bool
  | c :: rest => (lo ≤ c && c < hi) && utf8_tail2 128 192 rest
  | [] => false
end

/-- A decoded field value: a Python int, str (as its UTF-8 bytes), bytes, or a
nested Struct instance (its decoded field values). -/
inductive Value where
  | int : Int → Value
  | str : List Nat → Value
  | bytes : List Nat → Value
  | struct : List Value → Value

mutual
/-- Decoding of one field from its slice, as in the body of the field loop of
Struct.create_with_bytes: uint and sint read the slice with int.from_bytes
(sint then applies _uint_to_int with bits = size * 8), str decodes UTF-8 and
removes every NUL, bytes keeps the slice, and a nested Struct subclass is
decoded recursively by Struct.create_with_bytes(value, data) whose byte_order
parameter is left at its default "little". -/
def decodeField : FieldType → List Nat → ByteOrder → Option Value
  | .uint _, data, bo => some (.int (Int.ofNat (from_bytes data bo)))
  | .sint w, data, bo => some (.int (uint_to_int (from_bytes data bo) (w * 8)))
  | .str _, data, _ =>
      if validUTF8 data then some (.str (data.filter (fun b => b != 0))) else none
  | .bytes _, data, _ => some (.bytes data)
  | .nested s, data, _ =>
      match decodeFields s (data.take s.size) .little with
      | some vs => some (.struct vs)
      | none => none

/-- The field loop of Struct.create_with_bytes over an already-truncated
buffer.  The source keeps an absolute cursor into the buffer and slices
raw[current_off : current_off + size]; slicing the head with take and
recursing on drop is the same decomposition, since
raw[off : off + w] = (raw.drop off).take w and successive offsets compose
drops. -/
def decodeFields : Schema → List Nat → ByteOrder → Option (List Value)
  | .nil, _, _ => some []
  | .cons f rest, buf, bo =>
      match decodeField f (buf.take f.width) bo, decodeFields rest (buf.drop f.width) bo with
      | some v, some vs => some (v :: vs)
      | _, _ => none
end

/-- Model of Struct.create_with_bytes(struct_class, raw, byte_order): the
buffer is first truncated to the schema SIZE (raw = raw[:struct_class.SIZE]),
then the fields are decoded in order.  pre_init and post_init are no-ops on
the generic Struct, so the result is the list of decoded field values. -/
def create_with_bytes (s : Schema) (raw : List Nat) (bo : ByteOrder) : Option (List Value) :=
  decodeFields s (raw.take s.size) bo

/-- The raw _field_sizes entry of a primitive tag, exactly as stored in the
_SIZES declarations: the type-kind bits or-ed with the width.  _rebuild_raw
passes this raw value — unmasked — as the byte length of int.to_bytes; for a
nested Struct subclass the entry is a class object, and int.to_bytes with a
class as length is a TypeError (modelled none). -/
def raw_size_tag : FieldType → Option Nat
  | .uint w => some w
  | .sint w => some (0x10000 ||| w)
  | .str w => some (0x20000 ||| w)
  | .bytes w => some (0x30000 ||| w)
  | .nested _ => none

/-- One field slice of Struct._rebuild_raw: dispatch on the runtime type of
the current field value — an int is encoded with
field_dat.to_bytes(self._field_sizes[field], self.byte_order) (note: the raw
unmasked tag is the length), str is encoded to its UTF-8 bytes, bytes are
used verbatim, and any other value (a nested Struct instance) leaves data
as None so that the assert fails (modelled none). -/
def encodeValue (f : FieldType) (v : Value) (bo : ByteOrder) : Option (List Nat) :=
  match v with
  | .int n =>
      match raw_size_tag f with
      | some sz => to_bytes sz n bo
      | none => none
  | .str s => some s
  | .bytes b => some b
  | .struct _ => none

/-- Model of Struct._rebuild_raw: concatenate the per-field encodings of the
current field values in declared order.  Reading the .raw attribute of an
instance invokes exactly this function (Struct.__getattribute__).  A length
mismatch between fields and values cannot arise for constructed instances. -/
def rebuild_raw : Schema → List Value → ByteOrder → Option (List Nat)
  | .nil, [], _ => some []
  | .cons f fs, v :: vs, bo =>
      match encodeValue f v bo, rebuild_raw fs vs bo with
      | some d, some r => some (d ++ r)
      | _, _ => none
  | _, _, _ => none

/-- Model of Struct.create_with_values(struct_class, values, byte_order):
assign values[i] to field i (IndexError — modelled none — when fewer values
than fields are supplied; excess values are ignored), then call _rebuild_raw,
whose exception aborts construction.  The generic hooks are no-ops, so the
result is the instance's list of field values. -/
def create_with_values (s : Schema) (vals : List Value) (bo : ByteOrder) : Option (List Value) :=
  if s.num_fields ≤ vals.length then
    match rebuild_raw s (vals.take s.num_fields) bo with
    | some _ => some (vals.take s.num_fields)
    | none => none
  else none

/-- The mask computed by BitFieldStruct.pre_init for a sub-field of bit-width
b, namely int("1" * b, 2): the number with b one-bits; int("", 2) for b = 0
is a ValueError (modelled none). -/
def py_mask (b : Nat) : Option Nat :=
  if b = 0 then none else some (2 ^ b - 1)

/-- The sub-field extraction loop of BitFieldStruct.pre_init: running bit
cursor cur starts at 0, sub-field i is (value >> cur) & mask, and cur
advances by the declared bit-width. -/
def bf_split (value : Nat) : List Nat → Nat → Option (List Nat)
  | [], _ => some []
  | b :: bs, cur =>
      match py_mask b, bf_split value bs (cur + b) with
      | some m, some rest => some (((value >>> cur) &&& m) :: rest)
      | _, _ => none

/-- Model of BitFieldStruct.pre_init: assert sum(_BF_SIZES) == SIZE * 8
(AssertionError — modelled none — on mismatch), then split the backing value
into the sub-field values. -/
def pre_init_bitfield (W : Nat) (bf_sizes : List Nat) (value : Nat) : Option (List Nat) :=
  if bf_sizes.sum = W * 8 then bf_split value bf_sizes 0 else none

/-- Construction of a bitfield overlay instance from bytes: the schema has the
single backing unsigned field value of width W, so create_with_bytes decodes
value = int.from_bytes(raw[:W][0:W], byte_order) and then runs pre_init —
which, for BitFieldStruct, performs the width-sum assert before the instance
is marked initialized and returned.  The result pairs the backing value with
the derived sub-field values. -/
def bitfield_create_with_bytes (W : Nat) (bf_sizes : List Nat) (raw : List Nat)
    (bo : ByteOrder) : Option (Nat × List Nat) :=
  let value := from_bytes ((raw.take W).take W) bo
  match pre_init_bitfield W bf_sizes value with
  | some subs => some (value, subs)
  | none => none

/-- Validity predicate of the amended round-trip claim: the buffer splits
field-wise so that unsigned slices consist of genuine bytes and every text
slice is valid UTF-8 containing no NUL byte; schemas with signed or nested
fields are excluded (their re-encoding is broken, see the counterexamples). -/
def valid_nulfree_encoding : Schema → List Nat → Bool
  | .nil, buf => buf.isEmpty
  | .cons f rest, buf =>
    (match f with
     | .uint w => (buf.take w).all (fun b => decide (b < 256))
     | .str w => validUTF8 (buf.take w) && (buf.take w).all (fun b => b != 0)
     | .bytes _ => true
     | _ => false) && valid_nulfree_encoding rest (buf.drop f.width)

/-- Conformance of a value table to a schema, for the amended encode-decode
round trip: unsigned values fit their width, text values are valid UTF-8 of
exactly the declared width, byte values have exactly the declared width;
signed and nested fields are excluded (their re-encoding is broken). -/
def conforms : Schema → List Value → Bool
  | .nil, [] => true
  | .cons (.uint w) fs, .int n :: vs =>
      decide (0 ≤ n) && decide (n.toNat < 256 ^ w) && conforms fs vs
  | .cons (.str w) fs, .str s :: vs =>
      validUTF8 s && decide (s.length = w) && conforms fs vs
  | .cons (.bytes w) fs, .bytes b :: vs => decide (b.length = w) && conforms fs vs
  | _, _ => false

/-- Schemas whose fields are all integers or opaque bytes: on these, decoding
can never fail (no UTF-8 decoding is involved). -/
def int_bytes_only : Schema → Bool
  | .nil => true
  | .cons (.uint _) fs => int_bytes_only fs
  | .cons (.sint _) fs => int_bytes_only fs
  | .cons (.bytes _) fs => int_bytes_only fs
  | .cons _ _ => false

/-- Field-value equality up to NUL-stripping of text values, the comparison
used by the encode-decode round-trip property. -/
def value_eq_mod_nul : Value → Value → Prop
  | .str s, .str t => s.filter (fun b => b != 0) = t.filter (fun b => b != 0)
  | v, w => v = w

/-- Field-wise equality of two value tables up to NUL-stripping of text. -/
def values_eq_mod_nul : List Value → List Value → Prop :=
  List.Forall₂ value_eq_mod_nul

/-- In-range condition on the integer-typed values sitting in unsigned fields
of a value table: the amended width-overflow claim states that _rebuild_raw
can only succeed when every such value fits its declared width. -/
def uint_values_fit : Schema → List Value → Prop
  | .cons (.uint w) fs, .int n :: vs => (0 ≤ n ∧ n.toNat < 256 ^ w) ∧ uint_values_fit fs vs
  | .cons _ fs, _ :: vs => uint_values_fit fs vs
  | _, _ => True

/-- Modelled from the spec (section 4.2 Bitfield Overlay): sub-field i of a
backing value v is (v >> offset_i) & ((1 << b_i) - 1) where offset_i is the
sum of all earlier declared bit-widths.  This is the specification-side
formula that BitFieldStruct.pre_init is checked against. -/
def spec_bitfield_values (v : Nat) : List Nat → Nat → List Nat
  | [], _ => []
  | b :: bs, off => ((v >>> off) &&& ((1 <<< b) - 1)) :: spec_bitfield_values v bs (off + b)

/-! Helper lemmas about the byte conversions. -/

theorem from_little_lt (data : List Nat) (h : ∀ b ∈ data, b < 256) :
    from_bytes_little data < 256 ^ data.length := by
  induction data with
  | nil => simp [from_bytes_little]
  | cons b rest ih =>
    have hb : b < 256 := h b (by simp)
    have hr := ih (fun x hx => h x (by simp [hx]))
    simp only [from_bytes_little, List.length_cons, pow_succ]
    calc b + 256 * from_bytes_little rest
        ≤ 255 + 256 * from_bytes_little rest := by omega
      _ < 256 * (from_bytes_little rest + 1) := by ring_nf; omega
      _ ≤ 256 * 256 ^ rest.length := by
          have : from_bytes_little rest + 1 ≤ 256 ^ rest.length := hr
          exact Nat.mul_le_mul_left 256 this
      _ = 256 ^ rest.length * 256 := by ring

theorem from_to_little (data : List Nat) (h : ∀ b ∈ data, b < 256) :
    to_bytes_little data.length (from_bytes_little data) = data := by
  induction data with
  | nil => rfl
  | cons b rest ih =>
    have hb : b < 256 := h b (by simp)
    simp only [List.length_cons, to_bytes_little, from_bytes_little]
    have h1 : (b + 256 * from_bytes_little rest) % 256 = b := by
      rw [Nat.add_mul_mod_self_left, Nat.mod_eq_of_lt hb]
    have h2 : (b + 256 * from_bytes_little rest) / 256 = from_bytes_little rest := by
      rw [Nat.add_mul_div_left b _ (by norm_num : 0 < 256), Nat.div_eq_of_lt hb,
        Nat.zero_add]
    rw [h1, h2, ih (fun x hx => h x (by simp [hx]))]

theorem to_from_little (w n : Nat) (h : n < 256 ^ w) :
    from_bytes_little (to_bytes_little w n) = n := by
  induction w generalizing n with
  | zero => simp at h; simp [h, to_bytes_little, from_bytes_little]
  | succ w ih =>
    simp only [to_bytes_little, from_bytes_little]
    rw [ih (n / 256) (by rw [Nat.div_lt_iff_lt_mul (by norm_num)]; rw [pow_succ] at h; omega)]
    rw [Nat.mod_add_div]

theorem length_to_bytes_little (w n : Nat) : (to_bytes_little w n).length = w := by
  induction w generalizing n with
  | zero => rfl
  | succ w ih => simp [to_bytes_little, ih]

theorem from_little_append (l : List Nat) (b : Nat) :
    from_bytes_little (l ++ [b]) = from_bytes_little l + 256 ^ l.length * b := by
  induction l with
  | nil => simp [from_bytes_little]
  | cons x rest ih =>
    have hx : from_bytes_little ((x :: rest) ++ [b])
        = x + 256 * from_bytes_little (rest ++ [b]) := rfl
    rw [hx, ih]
    simp only [from_bytes_little, List.length_cons, pow_succ]
    ring

theorem from_bytes_big_eq (data : List Nat) :
    from_bytes data .big = from_bytes_little data.reverse := by
  suffices h : ∀ acc : Nat, data.foldl (fun a b => 256 * a + b) acc
      = acc * 256 ^ data.length + from_bytes_little data.reverse by
    simpa [from_bytes] using h 0
  induction data with
  | nil => intro acc; simp [from_bytes_little]
  | cons b rest ih =>
    intro acc
    simp only [List.foldl_cons, ih, List.reverse_cons, from_little_append,
      List.length_reverse, List.length_cons, pow_succ]
    ring

theorem round_to_bytes (data : List Nat) (bo : ByteOrder) (h : ∀ b ∈ data, b < 256) :
    to_bytes data.length (Int.ofNat (from_bytes data bo)) bo = some data := by
  cases bo with
  | little =>
    have h1 : ¬(Int.ofNat (from_bytes data .little) < 0) :=
      Int.not_lt.mpr (Int.ofNat_zero_le _)
    have hlt : from_bytes_little data < 256 ^ data.length := from_little_lt data h
    have ht : (Int.ofNat (from_bytes data .little)).toNat = from_bytes_little data := rfl
    have h2 : ¬(256 ^ data.length ≤ (Int.ofNat (from_bytes data .little)).toNat) := by
      rw [ht]; omega
    simp only [to_bytes, if_neg h1, if_neg h2]
    rw [ht, from_to_little data h]
  | big =>
    have hrev : ∀ b ∈ data.reverse, b < 256 := fun b hb => h b (List.mem_reverse.mp hb)
    have hfold : from_bytes data .big = from_bytes_little data.reverse := from_bytes_big_eq data
    have h1 : ¬(Int.ofNat (from_bytes data .big) < 0) :=
      Int.not_lt.mpr (Int.ofNat_zero_le _)
    have hlt : from_bytes_little data.reverse < 256 ^ data.length := by
      have := from_little_lt data.reverse hrev
      simpa [List.length_reverse] using this
    have ht : (Int.ofNat (from_bytes data .big)).toNat = from_bytes_little data.reverse := by
      rw [show (Int.ofNat (from_bytes data .big)).toNat = from_bytes data .big from rfl, hfold]
    have h2 : ¬(256 ^ data.length ≤ (Int.ofNat (from_bytes data .big)).toNat) := by
      rw [ht]; omega
    simp only [to_bytes, if_neg h1, if_neg h2]
    rw [ht]
    have hback : to_bytes_little data.length (from_bytes_little data.reverse) = data.reverse := by
      have := from_to_little data.reverse hrev
      simpa [List.length_reverse] using this
    rw [hback, List.reverse_reverse]

/-! Helper lemmas for the two's-complement interpretation. -/

theorem high_bit_test (k u : Nat) (h : u < 2 ^ (k + 1)) :
    ((u &&& (1 <<< k) != 0) = true) ↔ 2 ^ k ≤ u := by
  rw [Nat.one_shiftLeft, Nat.and_two_pow]
  have hdiv : u / 2 ^ k < 2 := by
    rw [Nat.div_lt_iff_lt_mul (Nat.pos_pow_of_pos k (by norm_num))]
    calc u < 2 ^ (k + 1) := h
      _ = 2 * 2 ^ k := by rw [pow_succ]; ring
  constructor
  · intro hne
    by_contra hlt
    push_neg at hlt
    have : u.testBit k = false := by
      rw [Nat.testBit_to_div_mod]
      simp [Nat.div_eq_of_lt hlt]
    simp [this] at hne
  · intro hle
    have h1 : 1 ≤ u / 2 ^ k := (Nat.one_le_div_iff (Nat.pos_pow_of_pos k (by norm_num))).mpr hle
    have : u.testBit k = true := by
      rw [Nat.testBit_to_div_mod]
      have : u / 2 ^ k = 1 := by omega
      simp [this]
    simp [this]

theorem uint_to_int_eq_bmod (bits u : Nat) (hb : 0 < bits) (hu : u < 2 ^ bits) :
    uint_to_int u bits = Int.bmod u (2 ^ bits) := by
  obtain ⟨k, rfl⟩ : ∃ k, bits = k + 1 := ⟨bits - 1, by omega⟩
  have hmod : (u : Int) % ((2 ^ (k + 1) : Nat) : Int) = (u : Int) := by
    apply Int.emod_eq_of_lt (Int.ofNat_zero_le _)
    exact_mod_cast hu
  have hhalf : (((2 ^ (k + 1) : Nat) : Int) + 1) / 2 = ((2 ^ k : Nat) : Int) := by
    have hp : ((2 ^ (k + 1) : Nat) : Int) = 2 * ((2 ^ k : Nat) : Int) := by
      push_cast [pow_succ]
      ring
    rw [hp]
    omega
  have hshift : ((1 <<< (k + 1) : Nat) : Int) = ((2 ^ (k + 1) : Nat) : Int) := by
    rw [Nat.one_shiftLeft]
  rw [uint_to_int, Int.bmod]
  simp only [Nat.add_sub_cancel, hmod, hhalf, hshift]
  rcases le_or_lt (2 ^ k) u with hge | hlt
  · rw [if_pos ((high_bit_test k u hu).mpr hge),
      if_neg (Int.not_lt.mpr (by exact_mod_cast hge))]
  · rw [if_neg (by rw [high_bit_test k u hu]; omega),
      if_pos (by exact_mod_cast hlt)]

/-! Helper lemmas about UTF-8 validity and NUL stripping. -/

set_option maxHeartbeats 1000000 in
theorem validUTF8_of_ascii (l : List Nat) (h : ∀ b ∈ l, b < 128) : validUTF8 l = true := by
  induction l with
  | nil => rfl
  | cons b rest ih =>
    have hb : b < 128 := h b (by simp)
    rw [validUTF8.eq_2, if_pos hb]
    exact ih (fun x hx => h x (by simp [hx]))

theorem filter_ne_zero_of_ne_zero (l : List Nat) (h : ∀ b ∈ l, b ≠ 0) :
    l.filter (fun b => b != 0) = l := by
  rw [List.filter_eq_self]
  intro a ha
  simpa using h a ha

theorem filter_ne_zero_idem (l : List Nat) :
    (l.filter (fun b => b != 0)).filter (fun b => b != 0) = l.filter (fun b => b != 0) := by
  apply filter_ne_zero_of_ne_zero
  intro b hb
  simpa using List.of_mem_filter hb

/-- Induction on the field list of a schema.  Fields are not recursed into:
all schema-level arguments of the engine walk the field list in order. -/
theorem schema_induction {motive : Schema → Prop} (hnil : motive .nil)
    (hcons : ∀ f rest, motive rest → motive (.cons f rest)) (S : Schema) : motive S :=
  @Schema.rec (fun _ => True) motive
    (fun _ => trivial) (fun _ => trivial) (fun _ => trivial) (fun _ => trivial)
    (fun _ _ => trivial) hnil (fun f rest _ h => hcons f rest h) S

theorem decode_rebuild_aux (S : Schema) (bo : ByteOrder) :
    ∀ B, valid_nulfree_encoding S B = true → B.length = S.size →
    ∃ vs, decodeFields S B bo = some vs ∧ rebuild_raw S vs bo = some B := by
  induction S using schema_induction with
  | hnil =>
    intro B _ hl
    refine ⟨[], rfl, ?_⟩
    have hB : B = [] := List.eq_nil_of_length_eq_zero (by simpa [Schema.size] using hl)
    simp [hB, rebuild_raw]
  | hcons f rest ih =>
    intro B hv hl
    have hlrest : (B.drop f.width).length = rest.size := by
      rw [List.length_drop, hl, Schema.size]
      omega
    have hwle : f.width ≤ B.length := by
      rw [hl, Schema.size]
      omega
    cases f with
    | uint w =>
      simp only [valid_nulfree_encoding, Bool.and_eq_true] at hv
      obtain ⟨hfield, hrest⟩ := hv
      simp only [FieldType.width] at hlrest hwle
      obtain ⟨vs, hdec, hreb⟩ := ih (B.drop w) hrest hlrest
      have hbytes : ∀ b ∈ B.take w, b < 256 := by
        intro b hb
        simpa using List.all_eq_true.mp hfield b hb
      have hlen : (B.take w).length = w := by
        rw [List.length_take]
        omega
      refine ⟨.int (Int.ofNat (from_bytes (B.take w) bo)) :: vs, ?_, ?_⟩
      · simp only [decodeFields, FieldType.width, decodeField, hdec]
      · have henc : encodeValue (.uint w) (.int (Int.ofNat (from_bytes (B.take w) bo))) bo
            = some (B.take w) := by
          simp only [encodeValue, raw_size_tag]
          have hr := round_to_bytes (B.take w) bo hbytes
          rw [hlen] at hr
          exact hr
        simp only [rebuild_raw, henc, hreb, FieldType.width]
        rw [List.take_append_drop]
    | sint w =>
      simp [valid_nulfree_encoding] at hv
    | str w =>
      simp only [valid_nulfree_encoding, Bool.and_eq_true] at hv
      obtain ⟨⟨hvalid, hnul⟩, hrest⟩ := hv
      simp only [FieldType.width] at hlrest hwle
      obtain ⟨vs, hdec, hreb⟩ := ih (B.drop w) hrest hlrest
      have hnz : ∀ b ∈ B.take w, b ≠ 0 := by
        intro b hb
        simpa using List.all_eq_true.mp hnul b hb
      refine ⟨.str ((B.take w).filter (fun b => b != 0)) :: vs, ?_, ?_⟩
      · simp only [decodeFields, FieldType.width, decodeField, hvalid, if_pos, hdec]
      · simp only [rebuild_raw, encodeValue, hreb, FieldType.width,
          filter_ne_zero_of_ne_zero (B.take w) hnz]
        rw [List.take_append_drop]
    | bytes w =>
      simp only [valid_nulfree_encoding, Bool.and_eq_true] at hv
      obtain ⟨_, hrest⟩ := hv
      simp only [FieldType.width] at hlrest hwle
      obtain ⟨vs, hdec, hreb⟩ := ih (B.drop w) hrest hlrest
      refine ⟨.bytes (B.take w) :: vs, ?_, ?_⟩
      · simp only [decodeFields, FieldType.width, decodeField, hdec]
      · simp only [rebuild_raw, encodeValue, hreb, FieldType.width]
        rw [List.take_append_drop]
    | nested s =>
      simp [valid_nulfree_encoding] at hv

/-! Helper lemmas about totality of decoding and truncation. -/

theorem decode_total (S : Schema) (h : int_bytes_only S = true) :
    ∀ B bo, (decodeFields S B bo).isSome = true := by
  induction S using schema_induction with
  | hnil => intro B bo; rfl
  | hcons f rest ih =>
    intro B bo
    cases f with
    | uint w =>
      simp only [int_bytes_only] at h
      obtain ⟨vs, hvs⟩ := Option.isSome_iff_exists.mp (ih h (B.drop w) bo)
      simp only [decodeFields, decodeField, FieldType.width, hvs, Option.isSome_some]
    | sint w =>
      simp only [int_bytes_only] at h
      obtain ⟨vs, hvs⟩ := Option.isSome_iff_exists.mp (ih h (B.drop w) bo)
      simp only [decodeFields, decodeField, FieldType.width, hvs, Option.isSome_some]
    | bytes w =>
      simp only [int_bytes_only] at h
      obtain ⟨vs, hvs⟩ := Option.isSome_iff_exists.mp (ih h (B.drop w) bo)
      simp only [decodeFields, decodeField, FieldType.width, hvs, Option.isSome_some]
    | str w => simp [int_bytes_only] at h
    | nested s => simp [int_bytes_only] at h

theorem create_trunc (S : Schema) (B : List Nat) (bo : ByteOrder) :
    create_with_bytes S B bo = create_with_bytes S (B.take S.size) bo := by
  simp only [create_with_bytes, List.take_take, min_self]

/-! Helper lemmas about conforming value tables. -/

theorem to_bytes_fits (w : Nat) (n : Int) (bo : ByteOrder) (h0 : 0 ≤ n)
    (hw : n.toNat < 256 ^ w) :
    ∃ d, to_bytes w n bo = some d ∧ d.length = w := by
  have h1 : ¬(n < 0) := Int.not_lt.mpr h0
  have h2 : ¬(256 ^ w ≤ n.toNat) := by omega
  cases bo with
  | little =>
    exact ⟨_, by simp only [to_bytes, if_neg h1, if_neg h2], length_to_bytes_little w n.toNat⟩
  | big =>
    refine ⟨(to_bytes_little w n.toNat).reverse, ?_, ?_⟩
    · simp only [to_bytes, if_neg h1, if_neg h2]
    · rw [List.length_reverse, length_to_bytes_little]

theorem to_bytes_some (w : Nat) (n : Int) (bo : ByteOrder) (d : List Nat)
    (h : to_bytes w n bo = some d) : 0 ≤ n ∧ n.toNat < 256 ^ w := by
  by_cases h1 : n < 0
  · simp [to_bytes, h1] at h
  · by_cases h2 : 256 ^ w ≤ n.toNat
    · simp [to_bytes, h1, h2] at h
    · exact ⟨Int.not_lt.mp h1, by omega⟩

theorem from_to_bytes (w : Nat) (n : Int) (bo : ByteOrder) (d : List Nat)
    (h0 : 0 ≤ n) (hw : n.toNat < 256 ^ w) (hd : to_bytes w n bo = some d) :
    from_bytes d bo = n.toNat := by
  have h1 : ¬(n < 0) := Int.not_lt.mpr h0
  have h2 : ¬(256 ^ w ≤ n.toNat) := by omega
  cases bo with
  | little =>
    simp only [to_bytes, if_neg h1, if_neg h2, Option.some_inj] at hd
    rw [← hd]
    exact to_from_little w n.toNat hw
  | big =>
    simp only [to_bytes, if_neg h1, if_neg h2, Option.some_inj] at hd
    rw [← hd]
    show from_bytes (to_bytes_little w n.toNat).reverse .big = n.toNat
    rw [from_bytes_big_eq, List.reverse_reverse]
    exact to_from_little w n.toNat hw

theorem conforms_length (S : Schema) : ∀ V, conforms S V = true → V.length = S.num_fields := by
  induction S using schema_induction with
  | hnil =>
    intro V h
    cases V with
    | nil => rfl
    | cons v vs => simp [conforms] at h
  | hcons f rest ih =>
    intro V h
    cases V with
    | nil => cases f <;> simp [conforms] at h
    | cons v vs =>
      have hrest : conforms rest vs = true := by
        cases f <;> cases v <;> simp only [conforms, Bool.and_eq_true] at h <;> tauto
      simp only [List.length_cons, Schema.num_fields, ih vs hrest]
      omega

theorem rebuild_exact (S : Schema) (bo : ByteOrder) :
    ∀ V, conforms S V = true →
    ∃ raw, rebuild_raw S V bo = some raw ∧ raw.length = S.size := by
  induction S using schema_induction with
  | hnil =>
    intro V h
    cases V with
    | nil => exact ⟨[], rfl, rfl⟩
    | cons v vs => simp [conforms] at h
  | hcons f rest ih =>
    intro V h
    cases V with
    | nil => cases f <;> simp [conforms] at h
    | cons v vs =>
      cases f with
      | uint w =>
        cases v with
        | int n =>
          simp only [conforms, Bool.and_eq_true, decide_eq_true_eq] at h
          obtain ⟨⟨hn0, hnw⟩, hrest⟩ := h
          obtain ⟨raw, hraw, hlen⟩ := ih vs hrest
          obtain ⟨d, hd, hdlen⟩ := to_bytes_fits w n bo hn0 hnw
          refine ⟨d ++ raw, ?_, ?_⟩
          · simp only [rebuild_raw, encodeValue, raw_size_tag, hd, hraw]
          · simp [hdlen, hlen, Schema.size, FieldType.width]
        | str s => simp [conforms] at h
        | bytes b => simp [conforms] at h
        | struct cs => simp [conforms] at h
      | sint w => cases v <;> simp [conforms] at h
      | str w =>
        cases v with
        | int n => simp [conforms] at h
        | str s =>
          simp only [conforms, Bool.and_eq_true, decide_eq_true_eq] at h
          obtain ⟨⟨hvalid, hslen⟩, hrest⟩ := h
          obtain ⟨raw, hraw, hlen⟩ := ih vs hrest
          refine ⟨s ++ raw, ?_, ?_⟩
          · simp only [rebuild_raw, encodeValue, hraw]
          · simp [hslen, hlen, Schema.size, FieldType.width]
        | bytes b => simp [conforms] at h
        | struct cs => simp [conforms] at h
      | bytes w =>
        cases v with
        | int n => simp [conforms] at h
        | str s => simp [conforms] at h
        | bytes b =>
          simp only [conforms, Bool.and_eq_true, decide_eq_true_eq] at h
          obtain ⟨hblen, hrest⟩ := h
          obtain ⟨raw, hraw, hlen⟩ := ih vs hrest
          refine ⟨b ++ raw, ?_, ?_⟩
          · simp only [rebuild_raw, encodeValue, hraw]
          · simp [hblen, hlen, Schema.size, FieldType.width]
        | struct cs => simp [conforms] at h
      | nested s => cases v <;> simp [conforms] at h

theorem decode_of_rebuild (S : Schema) (bo : ByteOrder) :
    ∀ V raw, conforms S V = true → rebuild_raw S V bo = some raw →
    ∃ vs, decodeFields S raw bo = some vs ∧ values_eq_mod_nul vs V := by
  induction S using schema_induction with
  | hnil =>
    intro V raw h hr
    cases V with
    | nil =>
      simp only [rebuild_raw, Option.some_inj] at hr
      exact ⟨[], by rw [← hr]; rfl, List.Forall₂.nil⟩
    | cons v vs => simp [conforms] at h
  | hcons f rest ih =>
    intro V raw h hr
    cases V with
    | nil => cases f <;> simp [conforms] at h
    | cons v vs =>
      cases f with
      | uint w =>
        cases v with
        | int n =>
          simp only [conforms, Bool.and_eq_true, decide_eq_true_eq] at h
          obtain ⟨⟨hn0, hnw⟩, hrest⟩ := h
          simp only [rebuild_raw, encodeValue, raw_size_tag] at hr
          cases hd : to_bytes w n bo with
          | none => rw [hd] at hr; simp at hr
          | some d =>
            cases hrr : rebuild_raw rest vs bo with
            | none => rw [hd, hrr] at hr; simp at hr
            | some r =>
              rw [hd, hrr, Option.some_inj] at hr
              subst hr
              obtain ⟨vs2, hdec, heq⟩ := ih vs r hrest hrr
              have hdlen : d.length = w := by
                obtain ⟨d2, hd2, hl2⟩ := to_bytes_fits w n bo hn0 hnw
                rw [hd2, Option.some_inj] at hd
                rw [← hd]
                exact hl2
              have htake : (d ++ r).take w = d := by
                rw [← hdlen]
                exact List.take_left d r
              have hdrop : (d ++ r).drop w = r := by
                rw [← hdlen]
                exact List.drop_left d r
              have hfb : from_bytes d bo = n.toNat := from_to_bytes w n bo d hn0 hnw hd
              refine ⟨.int (Int.ofNat (from_bytes ((d ++ r).take w) bo)) :: vs2, ?_, ?_⟩
              · simp only [decodeFields, FieldType.width, decodeField, hdrop, hdec]
              · rw [htake, hfb]
                have hn : Int.ofNat n.toNat = n := Int.toNat_of_nonneg hn0
                rw [hn]
                exact List.Forall₂.cons rfl heq
        | str s => simp [conforms] at h
        | bytes b => simp [conforms] at h
        | struct cs => simp [conforms] at h
      | sint w => cases v <;> simp [conforms] at h
      | str w =>
        cases v with
        | int n => simp [conforms] at h
        | str s =>
          simp only [conforms, Bool.and_eq_true, decide_eq_true_eq] at h
          obtain ⟨⟨hvalid, hslen⟩, hrest⟩ := h
          simp only [rebuild_raw, encodeValue] at hr
          cases hrr : rebuild_raw rest vs bo with
          | none => rw [hrr] at hr; simp at hr
          | some r =>
            rw [hrr, Option.some_inj] at hr
            subst hr
            obtain ⟨vs2, hdec, heq⟩ := ih vs r hrest hrr
            have htake : (s ++ r).take w = s := by
              rw [← hslen]
              exact List.take_left s r
            have hdrop : (s ++ r).drop w = r := by
              rw [← hslen]
              exact List.drop_left s r
            refine ⟨.str (((s ++ r).take w).filter (fun b => b != 0)) :: vs2, ?_, ?_⟩
            · simp only [decodeFields, FieldType.width, decodeField, hdrop, hdec, htake, hvalid,
                if_pos]
            · rw [htake]
              exact List.Forall₂.cons (filter_ne_zero_idem s) heq
        | bytes b => simp [conforms] at h
        | struct cs => simp [conforms] at h
      | bytes w =>
        cases v with
        | int n => simp [conforms] at h
        | str s => simp [conforms] at h
        | bytes b =>
          simp only [conforms, Bool.and_eq_true, decide_eq_true_eq] at h
          obtain ⟨hblen, hrest⟩ := h
          simp only [rebuild_raw, encodeValue] at hr
          cases hrr : rebuild_raw rest vs bo with
          | none => rw [hrr] at hr; simp at hr
          | some r =>
            rw [hrr, Option.some_inj] at hr
            subst hr
            obtain ⟨vs2, hdec, heq⟩ := ih vs r hrest hrr
            have htake : (b ++ r).take w = b := by
              rw [← hblen]
              exact List.take_left b r
            have hdrop : (b ++ r).drop w = r := by
              rw [← hblen]
              exact List.drop_left b r
            refine ⟨.bytes ((b ++ r).take w) :: vs2, ?_, ?_⟩
            · simp only [decodeFields, FieldType.width, decodeField, hdrop, hdec]
            · rw [htake]
              exact List.Forall₂.cons rfl heq
        | struct cs => simp [conforms] at h
      | nested s => cases v <;> simp [conforms] at h

theorem rebuild_uint_fit (S : Schema) (bo : ByteOrder) :
    ∀ V raw, rebuild_raw S V bo = some raw → uint_values_fit S V := by
  induction S using schema_induction with
  | hnil =>
    intro V raw _
    cases V with
    | nil => trivial
    | cons v vs => trivial
  | hcons f rest ih =>
    intro V raw h
    cases V with
    | nil => trivial
    | cons v vs =>
      simp only [rebuild_raw] at h
      cases he : encodeValue f v bo with
      | none => rw [he] at h; simp at h
      | some d =>
        cases hrr : rebuild_raw rest vs bo with
        | none => rw [he, hrr] at h; simp at h
        | some r =>
          have hfit := ih vs r hrr
          cases f with
          | uint w =>
            cases v with
            | int n =>
              simp only [encodeValue, raw_size_tag] at he
              have hb := to_bytes_some w n bo d he
              exact ⟨⟨hb.1, hb.2⟩, hfit⟩
            | str s => exact hfit
            | bytes b => exact hfit
            | struct cs => exact hfit
          | sint w => cases v <;> exact hfit
          | str w => cases v <;> exact hfit
          | bytes w => cases v <;> exact hfit
          | nested s => cases v <;> exact hfit

theorem bf_split_spec (v : Nat) : ∀ (bs : List Nat) (cur : Nat), (∀ b ∈ bs, 0 < b) →
    bf_split v bs cur = some (spec_bitfield_values v bs cur) := by
  intro bs
  induction bs with
  | nil => intro cur _; rfl
  | cons b rest ih =>
    intro cur h
    have hb : ¬(b = 0) := by
      have := h b (by simp)
      omega
    have hm : py_mask b = some (2 ^ b - 1) := by simp [py_mask, hb]
    simp only [bf_split, hm, ih (cur + b) (fun x hx => h x (by simp [hx])),
      spec_bitfield_values]
    rw [Nat.one_shiftLeft]

/-! Claim theorems. -/

/-- C1 counterexample: the decode-encode round trip fails as stated.  The
2-byte buffer 41 00 has the schema size of a single 2-byte text field and
decodes fine (a NUL-padded text slot, the normal on-disk form), but reading
back the raw form re-encodes the NUL-stripped string without re-padding and
yields the 1-byte buffer 41, not the original buffer. -/
theorem decode_rebuild_not_identity_on_nul_padded_text :
    create_with_bytes (.cons (.str 2) .nil) [65, 0] .little = some [.str [65]] ∧
    rebuild_raw (.cons (.str 2) .nil) [.str [65]] .little = some [65] ∧
    ([65] : List Nat) ≠ [65, 0] ∧
    ([65, 0] : List Nat).length = (Schema.cons (.str 2) .nil).size := by
  exact ⟨rfl, rfl, by decide, rfl⟩

/-- C1 (amended): for schemas built from unsigned-integer, text, and opaque
byte fields, decoding a buffer of exactly SIZE bytes and rebuilding the raw
form reproduces the buffer byte-identically, in both byte orders, provided
every text-field slice is valid UTF-8 containing no NUL byte.  (Text slices
with NUL padding, signed fields, and nested fields all break the round trip:
rebuild does not re-pad stripped text, signed fields encode with the raw type
tag 0x10000+width as the byte length, and a nested value fails rebuild's
assert.) -/
theorem roundtrip_decode_rebuild_requires_nulfree (S : Schema) (B : List Nat)
    (bo : ByteOrder) (hv : valid_nulfree_encoding S B = true) (hl : B.length = S.size) :
    ∃ vs, create_with_bytes S B bo = some vs ∧ rebuild_raw S vs bo = some B := by
  have htake : B.take S.size = B := by
    rw [← hl]
    exact List.take_length B
  have := decode_rebuild_aux S bo B hv hl
  simpa [create_with_bytes, htake] using this

/-- C1 witness: the amended round trip on a concrete mixed schema in big
endian order. -/
theorem roundtrip_decode_rebuild_witness :
    ∃ vs, create_with_bytes (.cons (.uint 2) (.cons (.str 2) (.cons (.bytes 1) .nil)))
        [1, 2, 65, 66, 9] .big = some vs ∧
      rebuild_raw (.cons (.uint 2) (.cons (.str 2) (.cons (.bytes 1) .nil))) vs .big
        = some [1, 2, 65, 66, 9] :=
  roundtrip_decode_rebuild_requires_nulfree _ _ _ (by decide) (by decide)

/-- C2 counterexample: decoding a buffer shorter than SIZE does not fail —
there is no SchemaSizeMismatch anywhere in create_with_bytes.  A 1-byte
buffer against a schema of SIZE 4 silently decodes: the slice raw[0:4] of a
1-byte buffer is just that byte and int.from_bytes reads it as 1. -/
theorem decode_short_buffer_no_failure :
    create_with_bytes (.cons (.uint 4) .nil) [1] .little = some [.int 1] ∧
    ([1] : List Nat).length < (Schema.cons (.uint 4) .nil).size := by
  exact ⟨rfl, by decide⟩

/-- C2 (amended): decode never fails on a short buffer; for schemas of
integer and opaque-byte fields it always succeeds, silently partially
decoding whatever bytes are present (each slice may be shorter than its
declared width, and integer fields then read fewer bytes).  Excess trailing
bytes are ignored: the buffer is first truncated to SIZE, so decoding any
buffer equals decoding its SIZE-byte prefix. -/
theorem decode_short_buffer_silently_succeeds (S : Schema) (h : int_bytes_only S = true)
    (B : List Nat) (bo : ByteOrder) :
    (create_with_bytes S B bo).isSome = true ∧
    create_with_bytes S B bo = create_with_bytes S (B.take S.size) bo :=
  ⟨decode_total S h (B.take S.size) bo, create_trunc S B bo⟩

/-- C2 witness: a 1-byte buffer against an 4-byte two-field schema decodes
without error. -/
theorem decode_short_buffer_witness :
    (create_with_bytes (.cons (.uint 2) (.cons (.sint 2) .nil)) [7] .big).isSome = true ∧
    create_with_bytes (.cons (.uint 2) (.cons (.sint 2) .nil)) [7] .big
      = create_with_bytes (.cons (.uint 2) (.cons (.sint 2) .nil))
          (([7] : List Nat).take (Schema.cons (.uint 2) (.cons (.sint 2) .nil)).size) .big :=
  decode_short_buffer_silently_succeeds _ (by decide) [7] .big

/-- C3 counterexample: the encode-decode round trip fails as stated for
signed fields.  The value -1 conforms to a signed 1-byte field's width
(two's-complement range -128..127), yet create_with_values aborts:
_rebuild_raw calls int.to_bytes on -1, which raises OverflowError (negative
int with signed=False), so no instance is produced at all. -/
theorem encode_negative_signed_fails :
    create_with_values (.cons (.sint 1) .nil) [.int (-1)] .little = none ∧
    (-128 : Int) ≤ -1 ∧ (-1 : Int) < 128 := by
  exact ⟨rfl, by decide, by decide⟩

/-- C3 (amended): for schemas of unsigned-integer, text, and opaque-byte
fields and value tables conforming to the field widths (unsigned values in
range, text values valid UTF-8 encoding to exactly the slot width, byte
values of exactly the slot width), encoding and then decoding the rebuilt
raw buffer returns the same values field-wise, with text compared after
NUL-stripping.  (Signed fields break the round trip: negative values abort
the encode, and non-negative ones are encoded into 0x10000+width bytes,
misaligning every later field.) -/
theorem encode_decode_roundtrip_for_conforming_values (S : Schema) (V : List Value)
    (bo : ByteOrder) (h : conforms S V = true) :
    create_with_values S V bo = some V ∧
    ∃ raw vs, rebuild_raw S V bo = some raw ∧ create_with_bytes S raw bo = some vs ∧
      values_eq_mod_nul vs V := by
  obtain ⟨raw, hraw, hlen⟩ := rebuild_exact S bo V h
  have hV : V.take S.num_fields = V := by
    rw [← conforms_length S V h]
    exact List.take_length V
  constructor
  · have hle : S.num_fields ≤ V.length := by
      rw [conforms_length S V h]
    simp only [create_with_values, if_pos hle, hV, hraw]
  · have htake : raw.take S.size = raw := by
      rw [← hlen]
      exact List.take_length raw
    obtain ⟨vs, hdec, heq⟩ := decode_of_rebuild S bo V raw h hraw
    refine ⟨raw, vs, hraw, ?_, heq⟩
    show decodeFields S (raw.take S.size) bo = some vs
    rw [htake]
    exact hdec

/-- C3 witness: the amended round trip on a concrete unsigned-plus-text
schema in big endian order, with a NUL inside the text value. -/
theorem encode_decode_roundtrip_witness :
    create_with_values (.cons (.uint 2) (.cons (.str 2) .nil)) [.int 300, .str [65, 0]] .big
      = some [.int 300, .str [65, 0]] ∧
    ∃ raw vs,
      rebuild_raw (.cons (.uint 2) (.cons (.str 2) .nil)) [.int 300, .str [65, 0]] .big
        = some raw ∧
      create_with_bytes (.cons (.uint 2) (.cons (.str 2) .nil)) raw .big = some vs ∧
      values_eq_mod_nul vs [.int 300, .str [65, 0]] :=
  encode_decode_roundtrip_for_conforming_values _ _ .big (by decide)

/-- C4 counterexample: an integer value that does not fit its field's
declared byte width does not always fail.  For a signed 1-byte field,
_rebuild_raw passes the raw tag 0x10000 OR 1 = 65537 — not the 1-byte
width — as the int.to_bytes length, so the value 2^32 (far outside one
byte) is happily encoded into 65537 bytes instead of raising. -/
theorem signed_overflow_rebuild_succeeds :
    (rebuild_raw (.cons (.sint 1) .nil) [.int (2 ^ 32)] .little).isSome = true ∧
    (2 : Int) ^ (8 * 1) < 2 ^ 32 := by
  refine ⟨?_, by decide⟩
  have h1 : ¬((2 ^ 32 : Int) < 0) := by decide
  have h2 : ¬((256 : Nat) ^ 65537 ≤ ((2 ^ 32 : Int)).toNat) := by
    rw [show ((2 ^ 32 : Int)).toNat = 2 ^ 32 by decide]
    rw [show (256 : Nat) = 2 ^ 8 by norm_num, ← pow_mul]
    exact not_le.mpr (Nat.pow_lt_pow_right one_lt_two (by norm_num))
  have htag : raw_size_tag (.sint 1) = some 65537 := by decide
  simp only [rebuild_raw, encodeValue, htag, to_bytes, if_neg h1, if_neg h2]
  rfl

/-- C4 (amended): for unsigned fields the claim holds — _rebuild_raw can
only succeed when every integer value held by an unsigned field fits its
declared width, so an out-of-range value makes the rebuild fail rather than
silently truncate or wrap; in particular 2^32 in an unsigned 4-byte field
yields a failure, never the bytes of 0.  (For signed fields the byte length
used is the raw type tag 0x10000+width, so oversized non-negative values are
encoded into 0x10000+width bytes instead of failing.) -/
theorem unsigned_overflow_rebuild_fails :
    (∀ (S : Schema) (V : List Value) (bo : ByteOrder) (raw : List Nat),
      rebuild_raw S V bo = some raw → uint_values_fit S V) ∧
    (∀ bo, rebuild_raw (.cons (.uint 4) .nil) [.int (2 ^ 32)] bo = none) := by
  constructor
  · exact fun S V bo raw h => rebuild_uint_fit S bo V raw h
  · intro bo
    cases bo <;> rfl

/-- C4 witness: a fitting unsigned value rebuilds, hence satisfies the fit
predicate, and the oversized unsigned value concretely fails. -/
theorem unsigned_overflow_rebuild_fails_witness :
    uint_values_fit (.cons (.uint 4) .nil) [.int 5] ∧
    rebuild_raw (.cons (.uint 4) .nil) [.int (2 ^ 32)] .little = none :=
  ⟨unsigned_overflow_rebuild_fails.1 _ [.int 5] .little [5, 0, 0, 0] rfl,
    unsigned_overflow_rebuild_fails.2 .little⟩

/-- C5: decoding a signed field of width w reads the slice as an unsigned
integer in the given byte order and applies the two's-complement correction,
agreeing with the balanced modulus (the unique representative in
[-2^(8w-1), 2^(8w-1)) congruent to the unsigned read modulo 2^(8w)) for
every positive width, and in particular 0xFF decodes to -1, 0x80 to -128,
and 0x7F to 127 as 1-byte signed values. -/
theorem signed_decode_twos_complement :
    (∀ (w : Nat) (data : List Nat) (bo : ByteOrder), 0 < w → data.length = w →
      (∀ b ∈ data, b < 256) →
      decodeField (.sint w) data bo
        = some (.int (Int.bmod (from_bytes data bo) (2 ^ (w * 8))))) ∧
    decodeField (.sint 1) [255] .little = some (.int (-1)) ∧
    decodeField (.sint 1) [128] .little = some (.int (-128)) ∧
    decodeField (.sint 1) [127] .little = some (.int 127) := by
  refine ⟨?_, rfl, rfl, rfl⟩
  intro w data bo hw hlen hb
  simp only [decodeField]
  have hfit : from_bytes data bo < 2 ^ (w * 8) := by
    have hlt : from_bytes data bo < 256 ^ w := by
      cases bo with
      | little =>
        have := from_little_lt data hb
        rw [hlen] at this
        exact this
      | big =>
        rw [from_bytes_big_eq]
        have := from_little_lt data.reverse (fun b h2 => hb b (List.mem_reverse.mp h2))
        rw [List.length_reverse, hlen] at this
        exact this
    calc from_bytes data bo < 256 ^ w := hlt
      _ = 2 ^ (w * 8) := by rw [show (256 : Nat) = 2 ^ 8 by norm_num, ← pow_mul, mul_comm]
  rw [uint_to_int_eq_bmod (w * 8) (from_bytes data bo) (by omega) hfit]

/-- C5 witness: the general statement applied to the 2-byte slice 00 80 in
little endian order. -/
theorem signed_decode_twos_complement_witness :
    decodeField (.sint 2) [0, 128] .little
      = some (.int (Int.bmod (from_bytes [0, 128] .little) (2 ^ (2 * 8)))) :=
  signed_decode_twos_complement.1 2 [0, 128] .little (by decide) (by decide) (by decide)

/-- C6: for positive sub-field bit-widths summing to the backing width, the
bitfield overlay derives each sub-field LSB-first as
(value >> offset_i) & ((1 << b_i) - 1) with offset_i the sum of the earlier
widths — the specification-side formula spec_bitfield_values — and in
particular backing value 5 with widths [2, 2, 28] yields [1, 1, 0]. -/
theorem bitfield_split_lsb_first (W : Nat) (bf_sizes : List Nat) (v : Nat)
    (hsum : bf_sizes.sum = W * 8) (hpos : ∀ b ∈ bf_sizes, 0 < b) :
    pre_init_bitfield W bf_sizes v = some (spec_bitfield_values v bf_sizes 0) ∧
    pre_init_bitfield 4 [2, 2, 28] 5 = some [1, 1, 0] := by
  refine ⟨?_, by decide⟩
  simp only [pre_init_bitfield, if_pos hsum]
  exact bf_split_spec v bf_sizes 0 hpos

/-- C6 witness: the general split applied to backing value 5 with widths
[2, 2, 28] on a 4-byte backing field. -/
theorem bitfield_split_lsb_first_witness :
    pre_init_bitfield 4 [2, 2, 28] 5 = some (spec_bitfield_values 5 [2, 2, 28] 0) :=
  (bitfield_split_lsb_first 4 [2, 2, 28] 5 (by decide) (by decide)).1

/-- C7: a fixed-width text field decodes its slice as UTF-8 with every NUL
removed, wherever it occurs: any slot of non-NUL ASCII content followed by
NUL padding decodes to exactly the content; the spec's 16-byte example
yields the 6 bytes of the string, and a NUL in the middle is removed too. -/
theorem text_decode_strips_all_nuls :
    (∀ (content : List Nat) (pad : Nat) (bo : ByteOrder),
      (∀ b ∈ content, 0 < b ∧ b < 128) →
      create_with_bytes (.cons (.str (content.length + pad)) .nil)
        (content ++ List.replicate pad 0) bo = some [.str content]) ∧
    create_with_bytes (.cons (.str 16) .nil)
      [95, 95, 84, 69, 88, 84, 0, 0, 0, 0, 0, 0, 0, 0, 0, 0] .little
      = some [.str [95, 95, 84, 69, 88, 84]] ∧
    decodeField (.str 3) [65, 0, 66] .little = some (.str [65, 66]) := by
  refine ⟨?_, rfl, rfl⟩
  intro content pad bo h
  have hlen : (content ++ List.replicate pad 0).length = content.length + pad := by
    simp [List.length_append, List.length_replicate]
  have hvalid : validUTF8 (content ++ List.replicate pad 0) = true := by
    apply validUTF8_of_ascii
    intro b hb
    rcases List.mem_append.mp hb with h1 | h2
    · exact (h b h1).2
    · have hz : b = 0 := List.eq_of_mem_replicate h2
      omega
  have hfil : (content ++ List.replicate pad 0).filter (fun b => b != 0) = content := by
    rw [List.filter_append]
    have h1 : content.filter (fun b => b != 0) = content :=
      filter_ne_zero_of_ne_zero content (fun b hb => by
        have := (h b hb).1
        omega)
    have h2 : (List.replicate pad 0).filter (fun b : Nat => b != 0) = [] := by
      apply List.filter_eq_nil_iff.mpr
      intro a ha
      have hz : a = 0 := List.eq_of_mem_replicate ha
      simp [hz]
    rw [h1, h2, List.append_nil]
  have hS : (Schema.cons (.str (content.length + pad)) Schema.nil).size
      = content.length + pad := by
    simp [Schema.size, FieldType.width, Schema.size]
  have htakeB : (content ++ List.replicate pad 0).take (content.length + pad)
      = content ++ List.replicate pad 0 := by
    rw [← hlen]
    exact List.take_length _
  simp only [create_with_bytes, hS, htakeB, decodeFields, FieldType.width, decodeField,
    hvalid, if_pos, hfil]

/-- C7 witness: the general NUL-stripping statement applied to the 16-byte
slot holding the 6 content bytes of the spec's example plus 10 NUL bytes. -/
theorem text_decode_strips_all_nuls_witness :
    create_with_bytes
      (.cons (.str (([95, 95, 84, 69, 88, 84] : List Nat).length + 10)) .nil)
      ([95, 95, 84, 69, 88, 84] ++ List.replicate 10 0) .big
      = some [.str [95, 95, 84, 69, 88, 84]] :=
  text_decode_strips_all_nuls.1 [95, 95, 84, 69, 88, 84] 10 .big (by decide)

/-- C8: when the declared sub-field bit-widths do not sum to 8 times the
backing field's byte width, constructing a bitfield overlay instance fails
in the pre-materialize hook (the assert in BitFieldStruct.pre_init), before
any instance is returned to the caller, whatever the buffer and byte order. -/
theorem bitfield_width_mismatch_fatal (W : Nat) (bf_sizes : List Nat)
    (hne : bf_sizes.sum ≠ W * 8) :
    ∀ (raw : List Nat) (bo : ByteOrder),
      bitfield_create_with_bytes W bf_sizes raw bo = none := by
  intro raw bo
  unfold bitfield_create_with_bytes pre_init_bitfield
  simp only [if_neg hne]

/-- C8 witness: widths [2, 2] against a 4-byte backing field (sum 4 ≠ 32)
make construction fail. -/
theorem bitfield_width_mismatch_fatal_witness :
    bitfield_create_with_bytes 4 [2, 2] [0, 0, 0, 0] .little = none :=
  bitfield_width_mismatch_fatal 4 [2, 2] (by decide) [0, 0, 0, 0] .little

/-- C9 counterexample: the raw form is not always SIZE bytes.  Decoding the
spec's own 16-byte text slot and then observing .raw (which re-runs
_rebuild_raw on the NUL-stripped 6-character value) returns 6 bytes, not
SIZE = 16. -/
theorem raw_shorter_than_size_with_stripped_text :
    create_with_bytes (.cons (.str 16) .nil)
      [95, 95, 84, 69, 88, 84, 0, 0, 0, 0, 0, 0, 0, 0, 0, 0] .big
      = some [.str [95, 95, 84, 69, 88, 84]] ∧
    rebuild_raw (.cons (.str 16) .nil) [.str [95, 95, 84, 69, 88, 84]] .big
      = some [95, 95, 84, 69, 88, 84] ∧
    ([95, 95, 84, 69, 88, 84] : List Nat).length ≠ (Schema.cons (.str 16) .nil).size := by
  exact ⟨rfl, rfl, by decide⟩

/-- C9 (amended): whenever every field value encodes at exactly its declared
width — unsigned values in range, text values of exactly the slot width,
byte values of exactly the slot width — the raw form observed through .raw
has exactly SIZE bytes.  This is a sufficient condition only, not a
characterization: the raw length is simply the sum of the per-value encoded
lengths, so mis-width text values can compensate for one another, and a
single NUL-stripped text value shorter than its slot in an otherwise exact
instance yields a raw form shorter than SIZE (the counterexample). -/
theorem raw_length_eq_size_for_exact_width_values (S : Schema) (V : List Value)
    (bo : ByteOrder) (h : conforms S V = true) :
    ∃ raw, rebuild_raw S V bo = some raw ∧ raw.length = S.size :=
  rebuild_exact S bo V h

/-- C9 witness: a conforming instance of a 6-byte schema rebuilds to exactly
6 bytes. -/
theorem raw_length_witness :
    ∃ raw, rebuild_raw (.cons (.uint 4) (.cons (.bytes 2) .nil))
        [.int 7, .bytes [1, 2]] .big = some raw ∧
      raw.length = (Schema.cons (.uint 4) (.cons (.bytes 2) .nil)).size :=
  raw_length_eq_size_for_exact_width_values _ _ .big (by decide)

/-- C10: decoding a nested sub-record field always recurses with
little-endian byte order — the byte_order argument of the recursive
Struct.create_with_bytes call is left at its default — so the nested decode
is independent of the parent's byte order.  Concretely, for a big-endian
parent holding bytes 00 01 00 01, the parent's own 2-byte field reads 1
(big endian) while the identical bytes of the nested child read 256 (little
endian); with a little-endian parent both read 256. -/
theorem nested_decode_always_little_endian :
    (∀ (sub : Schema) (data : List Nat) (bo : ByteOrder),
      decodeField (.nested sub) data bo = decodeField (.nested sub) data .little) ∧
    create_with_bytes (.cons (.uint 2) (.cons (.nested (.cons (.uint 2) .nil)) .nil))
        [0, 1, 0, 1] .big = some [.int 1, .struct [.int 256]] ∧
    create_with_bytes (.cons (.uint 2) (.cons (.nested (.cons (.uint 2) .nil)) .nil))
        [0, 1, 0, 1] .little = some [.int 256, .struct [.int 256]] := by
  refine ⟨?_, rfl, rfl⟩
  intro sub data bo
  rfl
